import Mathlib

/-!
Shallow embedding of the URL-shortener's in-process storage subsystem:
the `ShortUrl` entity (src/domain/ShortUrl.js), the bounded TTL cache
(src/cache/urlCache.js), the repository (src/repositories/urlRepository.js),
the service layer (src/service/urlService.js) and the cleanup scheduler
(src/cron_job/cleanupJob.js).

Time is a `Nat` of epoch milliseconds, passed explicitly as `now`
(the code reads `Date.now()` / `moment()`).  JavaScript `Map`s are
association lists in insertion order: `Map.get` finds the first (unique)
matching key, `Map.set` replaces the value in place when the key is
present (keeping its position) and appends otherwise, `Map.delete`
removes the single entry with the key.  In-place object mutation
(`clicks.push`, `Object.assign`) is modelled by writing the updated
record back to every store that holds the reference; for the states the
theorems quantify over this is exactly the repository's primary map and
the cache entry keyed by the record's own shortcode.
-/

/-! ### JavaScript Map primitives (association lists in insertion order) -/

def mfind {κ α : Type} [DecidableEq κ] (k : κ) : List (κ × α) → Option α
  | [] => none
  | p :: ps => if p.1 = k then some p.2 else mfind k ps

def mset {κ α : Type} [DecidableEq κ] (k : κ) (v : α) : List (κ × α) → List (κ × α)
  | [] => [(k, v)]
  | p :: ps => if p.1 = k then (k, v) :: ps else p :: mset k v ps

def mdel {κ α : Type} [DecidableEq κ] (k : κ) : List (κ × α) → List (κ × α)
  | [] => []
  | p :: ps => if p.1 = k then ps else p :: mdel k ps

def keysOf {κ α : Type} (l : List (κ × α)) : List κ := l.map Prod.fst

/-! ### Entity: `class ShortUrl` (src/domain/ShortUrl.js) -/

structure Location where
  country : String
  region : String
  city : String
deriving Repr, DecidableEq

structure Click where
  timestamp : Nat
  ip : String
  userAgent : String
  referer : String
  location : Location
deriving Repr, DecidableEq

structure ClickData where
  ip : String
  userAgent : String
  referer : String
  location : Location
deriving Repr, DecidableEq

structure ShortUrl where
  id : Nat
  originalUrl : String
  shortcode : String
  createdAt : Nat
  expiresAt : Option Nat
  clicks : List Click
deriving Repr, DecidableEq

/-- `addClick(clickData)`: pushes a fresh click event onto `clicks` and
returns it (ShortUrl.js lines 24-36). -/
def ShortUrl.addClick (now : Nat) (d : ClickData) (u : ShortUrl) : Click × ShortUrl :=
  let click : Click := ⟨now, d.ip, d.userAgent, d.referer, d.location⟩
  (click, { u with clicks := u.clicks ++ [click] })

/-- `getClickCount()`: length of `clicks` (ShortUrl.js lines 38-40). -/
def ShortUrl.getClickCount (u : ShortUrl) : Nat := u.clicks.length

/-- `isExpired()`: false when no expiry is set, else `moment().isAfter(expiresAt)`,
i.e. strictly `now > expiresAt` (ShortUrl.js lines 42-45). -/
def ShortUrl.isExpired (now : Nat) (u : ShortUrl) : Bool :=
  match u.expiresAt with
  | none => false
  | some e => decide (e < now)

/-- `getTimeUntilExpiry()`: `moment(expiresAt).diff(moment(), 'minutes')`
(ShortUrl.js lines 47-52).  moment's `diff` divides the millisecond
difference by 60000 and truncates toward zero (`absFloor`), which is
`Int.tdiv`. -/
def ShortUrl.getTimeUntilExpiry (now : Nat) (u : ShortUrl) : Option Int :=
  match u.expiresAt with
  | none => none
  | some e => some (Int.tdiv ((e : Int) - (now : Int)) 60000)

/-! ### Bounded TTL cache: `class UrlCache` (src/cache/urlCache.js) -/

structure CacheEntry where
  value : ShortUrl
  timestamp : Nat
  expiresAt : Nat
deriving Repr, DecidableEq

structure UrlCache where
  maxSize : Nat
  ttl : Nat
  entries : List (String × CacheEntry)
deriving Repr, DecidableEq

/-- `set(key, value)` (urlCache.js lines 14-37): when `size >= maxSize`,
deletes the first key in iteration order, then stores
`{value, timestamp: Date.now(), expiresAt: Date.now() + ttl}` under `key`. -/
def UrlCache.set (now : Nat) (k : String) (v : ShortUrl) (c : UrlCache) : UrlCache :=
  let es :=
    if c.maxSize ≤ c.entries.length then
      match c.entries with
      | [] => []
      | p :: _ => mdel p.1 c.entries
    else c.entries
  { c with entries := mset k ⟨v, now, now + c.ttl⟩ es }

/-- `get(key)` (urlCache.js lines 39-61): miss on absent key; when
`Date.now() > entry.expiresAt` the entry is lazily deleted and the call
is a miss; otherwise the stored value is returned. -/
def UrlCache.get (now : Nat) (k : String) (c : UrlCache) : Option ShortUrl × UrlCache :=
  match mfind k c.entries with
  | none => (none, c)
  | some e =>
    if e.expiresAt < now then (none, { c with entries := mdel k c.entries })
    else (some e.value, c)

/-- `delete(key)` (urlCache.js lines 80-91). -/
def UrlCache.del (k : String) (c : UrlCache) : UrlCache :=
  { c with entries := mdel k c.entries }

/-- In-place mutation of a record object that a cache entry still references
(`Object.assign` on a record also held by the cache): the entry's stored
value changes, its timestamp and TTL do not. -/
def UrlCache.assignValue (k : String) (v : ShortUrl) (c : UrlCache) : UrlCache :=
  { c with entries := c.entries.map (fun p => if p.1 = k then (p.1, { p.2 with value := v }) else p) }

/-! ### Repository: `class UrlRepository` (src/repositories/urlRepository.js) -/

structure RepoState where
  urls : List (Nat × ShortUrl)
  shortcodeIndex : List (String × Nat)
  cache : UrlCache
deriving Repr, DecidableEq

/-- `delete(id)` (urlRepository.js lines 134-153): removes the record from
the primary map, the shortcode index and the cache; returns false when
absent. -/
def RepoState.delete (id : Nat) (st : RepoState) : Bool × RepoState :=
  match mfind id st.urls with
  | none => (false, st)
  | some u =>
    (true,
      { urls := mdel id st.urls
        shortcodeIndex := mdel u.shortcode st.shortcodeIndex
        cache := st.cache.del u.shortcode })

/-- `findByShortcode(shortcode)` (urlRepository.js lines 44-83): cache hit
returns immediately; otherwise index lookup then primary-map lookup; an
expired record is deleted (`this.delete(shortUrl.id)`) and the call
returns null; a live record is re-cached and returned. -/
def RepoState.findByShortcode (now : Nat) (code : String) (st : RepoState) :
    Option ShortUrl × RepoState :=
  match UrlCache.get now code st.cache with
  | (some u, c1) => (some u, { st with cache := c1 })
  | (none, c1) =>
    let st1 : RepoState := { st with cache := c1 }
    match mfind code st1.shortcodeIndex with
    | none => (none, st1)
    | some urlId =>
      match mfind urlId st1.urls with
      | none => (none, st1)
      | some u =>
        if u.isExpired now then (none, (st1.delete u.id).2)
        else (some u, { st1 with cache := st1.cache.set now code u })

/-- `findById(id)` (urlRepository.js lines 85-106): primary-map lookup with
the same expiry-triggers-delete behaviour; the cache is not consulted. -/
def RepoState.findById (now : Nat) (id : Nat) (st : RepoState) : Option ShortUrl × RepoState :=
  match mfind id st.urls with
  | none => (none, st)
  | some u =>
    if u.isExpired now then (none, (st.delete id).2)
    else (some u, st)

/-- A patch object passed to `update(id, updateData)`; `Object.assign`
copies only the fields present. -/
structure Patch where
  shortcode : Option String
  originalUrl : Option String
deriving Repr, DecidableEq

def applyPatch (p : Patch) (u : ShortUrl) : ShortUrl :=
  { u with
    shortcode := p.shortcode.getD u.shortcode
    originalUrl := p.originalUrl.getD u.originalUrl }

/-- `update(id, updateData)` (urlRepository.js lines 108-132): resolves the
record via `findById` (not-found propagates as `none`), then
`Object.assign(shortUrl, updateData)` mutates the stored object in place
(modelled by writing the patched record to the primary map and to the
cache entry still referencing it), and only afterwards compares
`updateData.shortcode !== shortUrl.shortcode` (the already-patched
object) to decide whether to relocate the index and cache keys. -/
def RepoState.update (now : Nat) (id : Nat) (p : Patch) (st : RepoState) :
    Option ShortUrl × RepoState :=
  match RepoState.findById now id st with
  | (none, st1) => (none, st1)
  | (some u, st1) =>
    let u2 := applyPatch p u
    let st2 : RepoState :=
      { st1 with
        urls := mset id u2 st1.urls
        cache := UrlCache.assignValue u.shortcode u2 st1.cache }
    let st3 : RepoState :=
      match p.shortcode with
      | none => st2
      | some c =>
        if c ≠ "" ∧ c ≠ u2.shortcode then
          { st2 with
            shortcodeIndex := mset c id (mdel u2.shortcode st2.shortcodeIndex)
            cache := (st2.cache.del u2.shortcode).set now c u2 }
        else st2
    (some u2, st3)

/-- `addClick(shortcode, clickData)` (urlRepository.js lines 155-173):
resolves the record via `findByShortcode`, appends the click (in-place
mutation of the shared object) and refreshes the cache entry with
`this.cache.set(shortcode, shortUrl)`. -/
def RepoState.addClick (now : Nat) (code : String) (d : ClickData) (st : RepoState) :
    Option Click × RepoState :=
  match RepoState.findByShortcode now code st with
  | (none, st1) => (none, st1)
  | (some u, st1) =>
    let r := u.addClick now d
    (some r.1,
      { st1 with
        urls := mset u.id r.2 st1.urls
        cache := st1.cache.set now code r.2 })

/-- `cleanup()` loop body (urlRepository.js lines 207-228): iterates the
primary map's entries, deleting each record whose `isExpired()` holds and
counting the deletions. -/
def cleanupLoop (now : Nat) : List (Nat × ShortUrl) → RepoState → Nat → RepoState × Nat
  | [], st, cnt => (st, cnt)
  | (id, u) :: rest, st, cnt =>
    if u.isExpired now then cleanupLoop now rest (st.delete id).2 (cnt + 1)
    else cleanupLoop now rest st cnt

/-- `cleanup()` (urlRepository.js lines 207-228): returns the number of
deleted records alongside the swept state. -/
def RepoState.cleanup (now : Nat) (st : RepoState) : Nat × RepoState :=
  let r := cleanupLoop now st.urls st 0
  (r.2, r.1)

/-! ### Service: `class UrlService` (src/service/urlService.js) -/

/-- The 62-character alphanumeric alphabet of `generateShortcode()`
(urlService.js line 16). -/
def shortcodeChars : List Char :=
  "ABCDEFGHIJKLMNOPQRSTUVWXYZabcdefghijklmnopqrstuvwxyz0123456789".toList

/-- `generateShortcode()` (urlService.js lines 14-29): picks
`config.shortcodeLength` characters, each indexed by
`Math.floor(Math.random() * chars.length)`; the random draw at position
`i` is modelled as `rand i % 62`. -/
def generateShortcode (len : Nat) (rand : Nat → Nat) : String :=
  String.mk ((List.range len).map (fun i =>
    shortcodeChars.get ⟨rand i % 62, by
      have h : rand i % 62 < 62 := Nat.mod_lt _ (by decide)
      simpa [shortcodeChars] using h⟩))

/-- The loop of `generateUniqueShortcode()` (urlService.js lines 31-55):
`fuel` is `maxAttempts - attempts`, `attempt` the current attempt index;
each iteration draws a code and checks it with the repository's
`findByShortcode`, whose state effects thread through. -/
def genUniqueGo (now len : Nat) (rand : Nat → Nat → Nat) :
    Nat → Nat → RepoState → Option (String × RepoState)
  | 0, _, _ => none
  | fuel + 1, attempt, st =>
    let code := generateShortcode len (rand attempt)
    match RepoState.findByShortcode now code st with
    | (none, st1) => some (code, st1)
    | (some _, st1) => genUniqueGo now len rand fuel (attempt + 1) st1

/-- `generateUniqueShortcode()` (urlService.js lines 31-55): up to
`maxAttempts = 10` draws; `none` models the thrown exhaustion error. -/
def UrlService.generateUniqueShortcode (now len : Nat) (rand : Nat → Nat → Nat)
    (st : RepoState) : Option (String × RepoState) :=
  genUniqueGo now len rand 10 0 st

/-- The code drawn on attempt `i`. -/
def c6CodeAt (len : Nat) (rand : Nat → Nat → Nat) (i : Nat) : String :=
  generateShortcode len (rand i)

/-- The repository state just before attempt `i` of
`generateUniqueShortcode` (each collision check may mutate the state). -/
def c6StateAt (now len : Nat) (rand : Nat → Nat → Nat) (st : RepoState) : Nat → RepoState
  | 0 => st
  | i + 1 =>
    (RepoState.findByShortcode now (c6CodeAt len rand i) (c6StateAt now len rand st i)).2

def unknownLocation : Location := ⟨"Unknown", "Unknown", "Unknown"⟩

/-- `extractLocation(ip)` (urlService.js lines 215-238): loopback or empty
IPs and failed geo lookups yield the Unknown triad; `geo` stands for the
external `geoip.lookup` collaborator. -/
def extractLocation (geo : String → Option Location) (ip : String) : Location :=
  if ip = "" ∨ ip = "::1" ∨ ip = "127.0.0.1" then unknownLocation
  else
    match geo ip with
    | none => unknownLocation
    | some g =>
      ⟨if g.country = "" then "Unknown" else g.country,
       if g.region = "" then "Unknown" else g.region,
       if g.city = "" then "Unknown" else g.city⟩

structure RequestMeta where
  ip : String
  userAgent : String
  referer : String
deriving Repr, DecidableEq

inductive RedirectErr where
  | notFound : RedirectErr
  | expired : RedirectErr
deriving Repr, DecidableEq

/-- The click event a redirect at time `now` with request metadata `req`
appends (service builds the click data, `ShortUrl.addClick` stamps it). -/
def mkClick (now : Nat) (geo : String → Option Location) (req : RequestMeta) : Click :=
  ⟨now, req.ip, req.userAgent, req.referer, extractLocation geo req.ip⟩

/-- `redirectToOriginalUrl(shortcode, requestData)` (urlService.js lines
127-169): find, explicit expiry check, geo lookup, click recording via the
repository, then the original URL. -/
def UrlService.redirectToOriginalUrl (now : Nat) (geo : String → Option Location)
    (code : String) (req : RequestMeta) (st : RepoState) :
    Except RedirectErr String × RepoState :=
  match RepoState.findByShortcode now code st with
  | (none, st1) => (Except.error RedirectErr.notFound, st1)
  | (some u, st1) =>
    if u.isExpired now then (Except.error RedirectErr.expired, st1)
    else
      let d : ClickData := ⟨req.ip, req.userAgent, req.referer, extractLocation geo req.ip⟩
      match RepoState.addClick now code d st1 with
      | (none, st2) => (Except.error RedirectErr.notFound, st2)
      | (some _, st2) => (Except.ok u.originalUrl, st2)

/-- `cleanupExpiredUrls()` (urlService.js lines 240-252): delegates to the
repository's `cleanup()`. -/
def UrlService.cleanupExpiredUrls (now : Nat) (st : RepoState) : Nat × RepoState :=
  RepoState.cleanup now st

/-- `N` sequential redirect calls on the same shortcode, the call at
position `i` using request metadata `reqs i`. -/
def redirectSeq (now : Nat) (geo : String → Option Location) (reqs : Nat → RequestMeta)
    (code : String) : Nat → Nat → RepoState → List (Except RedirectErr String) × RepoState
  | _, 0, st => ([], st)
  | i, n + 1, st =>
    let r1 := UrlService.redirectToOriginalUrl now geo code (reqs i) st
    let rs := redirectSeq now geo reqs code (i + 1) n r1.2
    (r1.1 :: rs.1, rs.2)

/-! ### Cleanup scheduler: `class CleanupJob` (src/cron_job/cleanupJob.js) -/

structure JobState where
  isRunning : Bool
  lastRun : Option Nat
  nextRun : Option Nat
deriving Repr, DecidableEq

/-- Constructor state (cleanupJob.js lines 5-12). -/
def JobState.init : JobState := ⟨false, none, none⟩

def cleanupIntervalMs : Nat := 30 * 60 * 1000

/-- `start()` (cleanupJob.js lines 14-36): schedules the cron task,
computes `nextRun` and sets `isRunning = true`. -/
def JobState.start (now : Nat) (j : JobState) : JobState :=
  { j with nextRun := some (now + cleanupIntervalMs), isRunning := true }

inductive CleanupOutcome where
  | skipped : CleanupOutcome
  | ran : Nat → CleanupOutcome
deriving Repr, DecidableEq

/-- `runCleanup()` (cleanupJob.js lines 50-79): returns immediately when
`isRunning` is already true; otherwise sets the flag, sweeps via the
service, records `lastRun`/`nextRun` and clears the flag in `finally`.
A run is one atomic step of the single-threaded event loop. -/
def runCleanup (now : Nat) (j : JobState) (st : RepoState) :
    CleanupOutcome × JobState × RepoState :=
  if j.isRunning then (CleanupOutcome.skipped, j, st)
  else
    let r := UrlService.cleanupExpiredUrls now st
    (CleanupOutcome.ran r.1,
      { isRunning := false, lastRun := some now, nextRun := some (now + cleanupIntervalMs) },
      r.2)

/-- `runManualCleanup()` (cleanupJob.js lines 81-99): calls the service's
`cleanupExpiredUrls` directly; it neither reads nor writes `isRunning`. -/
def runManualCleanup (now : Nat) (j : JobState) (st : RepoState) :
    Nat × JobState × RepoState :=
  let r := UrlService.cleanupExpiredUrls now st
  (r.1, j, r.2)

/-! ### Cache operation sequences (for the FIFO-eviction property) -/

inductive CacheOp where
  | setOp : Nat → String → ShortUrl → CacheOp
  | getOp : Nat → String → CacheOp
deriving Repr, DecidableEq

def CacheOp.time : CacheOp → Nat
  | setOp t _ _ => t
  | getOp t _ => t

/-- Run a sequence of cache operations (inserts and reads), each carrying
its own timestamp. -/
def runCacheOps : List CacheOp → UrlCache → UrlCache
  | [], c => c
  | CacheOp.setOp t k v :: rest, c => runCacheOps rest (c.set t k v)
  | CacheOp.getOp t k :: rest, c => runCacheOps rest (UrlCache.get t k c).2

/-- The subsequence of inserts of an operation sequence. -/
def setsOf : List CacheOp → List (Nat × String × ShortUrl)
  | [] => []
  | CacheOp.setOp t k v :: rest => (t, k, v) :: setsOf rest
  | CacheOp.getOp _ _ :: rest => setsOf rest

def runSets : List (Nat × String × ShortUrl) → UrlCache → UrlCache
  | [], c => c
  | (t, k, v) :: rest, c => runSets rest (c.set t k v)

def setKeys (l : List (Nat × String × ShortUrl)) : List String := l.map (fun s => s.2.1)

/-! ### Repository well-formedness for click accumulation -/

/-- The record the repository's authoritative store associates with a
shortcode: index lookup, then primary-map lookup. -/
def recordOf (code : String) (st : RepoState) : Option ShortUrl :=
  match mfind code st.shortcodeIndex with
  | none => none
  | some id => mfind id st.urls

/-- Well-formedness of a repository state, as maintained by the JS maps
and object references: records are stored under their own id, the index
maps a shortcode to the id of a record carrying that shortcode, every
cache entry holds (a reference to) the record the primary map stores
under the entry's key, and all three maps have pairwise-distinct keys. -/
def Consistent (st : RepoState) : Prop :=
  (∀ p ∈ st.urls, p.2.id = p.1) ∧
  (∀ p ∈ st.shortcodeIndex,
    (mfind p.2 st.urls).map ShortUrl.shortcode = some p.1 ∧
    (mfind p.2 st.urls).map ShortUrl.id = some p.2) ∧
  (∀ q ∈ st.cache.entries,
    q.2.value.shortcode = q.1 ∧
    mfind q.1 st.shortcodeIndex = some q.2.value.id ∧
    mfind q.2.value.id st.urls = some q.2.value) ∧
  (keysOf st.urls).Nodup ∧
  (keysOf st.shortcodeIndex).Nodup ∧
  (keysOf st.cache.entries).Nodup

instance decidableConsistent (st : RepoState) : Decidable (Consistent st) := by
  unfold Consistent
  infer_instance

/-! ### Concrete states used by counterexamples and witnesses -/

/-- A record that is expired at any `now > 10`. -/
def uExpired : ShortUrl := ⟨1, "http://e.example", "a", 0, some 10, []⟩

/-- A record that is live at any `now ≤ 100`. -/
def uLive : ShortUrl := ⟨1, "http://l.example", "a", 0, some 100, []⟩

def emptyCache : UrlCache := ⟨100, 300000, []⟩

def stEmpty : RepoState := ⟨[], [], emptyCache⟩

/-- One expired record, empty cache. -/
def stExpired : RepoState := ⟨[(1, uExpired)], [("a", 1)], emptyCache⟩

/-- One live record, empty cache. -/
def stLive : RepoState := ⟨[(1, uLive)], [("a", 1)], emptyCache⟩

/-- One record that is expired at `now = 50` but still held by a cache
entry whose own TTL reaches to time 300000. -/
def stCachedExpired : RepoState :=
  ⟨[(1, uExpired)], [("a", 1)], ⟨100, 300000, [("a", ⟨uExpired, 0, 300000⟩)]⟩⟩

/-- A record with no expiry, for exercising `update`. -/
def uNoExpiry : ShortUrl := ⟨1, "http://x.example", "a", 0, none, []⟩

def stNoExpiry : RepoState := ⟨[(1, uNoExpiry)], [("a", 1)], emptyCache⟩

/-- A record whose expiry has just passed (by half a minute) at `now = 30000`. -/
def uJustExpired : ShortUrl := ⟨1, "http://j.example", "a", 0, some 0, []⟩

/-- A full two-entry cache (capacity 2) for the refresh-eviction theorems. -/
def cacheEntryW : CacheEntry := ⟨uLive, 0, 10⟩

def cacheFullW : UrlCache := ⟨2, 10, [("a", cacheEntryW), ("b", cacheEntryW)]⟩

/-! ## Helper lemmas about the Map primitives -/

theorem mfind_eq_some_mem {κ α : Type} [DecidableEq κ] {k : κ} {v : α} :
    ∀ {l : List (κ × α)}, mfind k l = some v → (k, v) ∈ l := by
  intro l h
  induction l with
  | nil => simp [mfind] at h
  | cons q qs ih =>
    obtain ⟨q1, q2⟩ := q
    by_cases hq : q1 = k
    · subst hq
      simp [mfind] at h
      subst h
      exact List.mem_cons_self _ _
    · simp [mfind, hq] at h
      exact List.mem_cons_of_mem _ (ih h)

theorem mfind_eq_none_forall {κ α : Type} [DecidableEq κ] {k : κ} :
    ∀ {l : List (κ × α)}, mfind k l = none → ∀ p ∈ l, p.1 ≠ k := by
  intro l h
  induction l with
  | nil => intro p hp; simp at hp
  | cons q qs ih =>
    obtain ⟨q1, q2⟩ := q
    by_cases hq : q1 = k
    · simp [mfind, hq] at h
    · simp only [mfind, hq, if_neg, if_false] at h
      intro p hp
      rcases List.mem_cons.mp hp with h1 | h2
      · subst h1; exact hq
      · exact ih h p h2

theorem mem_mdel {κ α : Type} [DecidableEq κ] {k : κ} {p : κ × α} :
    ∀ {l : List (κ × α)}, p ∈ mdel k l → p ∈ l := by
  intro l h
  induction l with
  | nil => simp [mdel] at h
  | cons q qs ih =>
    obtain ⟨q1, q2⟩ := q
    by_cases hq : q1 = k
    · simp only [mdel, hq, if_pos] at h
      exact List.mem_cons_of_mem _ h
    · simp only [mdel, hq, if_neg, if_false] at h
      rcases List.mem_cons.mp h with h1 | h2
      · subst h1; exact List.mem_cons_self _ _
      · exact List.mem_cons_of_mem _ (ih h2)

theorem mdel_sublist {κ α : Type} [DecidableEq κ] (k : κ) :
    ∀ (l : List (κ × α)), List.Sublist (mdel k l) l := by
  intro l
  induction l with
  | nil => simp [mdel]
  | cons q qs ih =>
    obtain ⟨q1, q2⟩ := q
    by_cases hq : q1 = k
    · simp only [mdel, hq, if_pos]
      exact List.Sublist.cons _ (List.Sublist.refl _)
    · simp only [mdel, hq, if_neg, if_false]
      exact List.Sublist.cons₂ _ ih

theorem keys_mdel_sublist {κ α : Type} [DecidableEq κ] (k : κ) (l : List (κ × α)) :
    List.Sublist (keysOf (mdel k l)) (keysOf l) :=
  List.Sublist.map Prod.fst (mdel_sublist k l)

theorem nodup_keys_mdel {κ α : Type} [DecidableEq κ] {k : κ} {l : List (κ × α)}
    (h : (keysOf l).Nodup) : (keysOf (mdel k l)).Nodup :=
  List.Nodup.sublist (keys_mdel_sublist k l) h

theorem mem_mdel_ne {κ α : Type} [DecidableEq κ] {k : κ} {p : κ × α} :
    ∀ {l : List (κ × α)}, (keysOf l).Nodup → p ∈ mdel k l → p ∈ l ∧ p.1 ≠ k := by
  intro l hnd h
  induction l with
  | nil => simp [mdel] at h
  | cons q qs ih =>
    obtain ⟨q1, q2⟩ := q
    simp only [keysOf, List.map_cons, List.nodup_cons] at hnd
    by_cases hq : q1 = k
    · simp only [mdel, hq, if_pos] at h
      refine ⟨List.mem_cons_of_mem _ h, ?_⟩
      intro hpk
      exact hnd.1 (hq ▸ hpk ▸ List.mem_map_of_mem Prod.fst h)
    · simp only [mdel, hq, if_neg, if_false] at h
      rcases List.mem_cons.mp h with h1 | h2
      · subst h1; exact ⟨List.mem_cons_self _ _, hq⟩
      · rcases ih hnd.2 h2 with ⟨hm, hne⟩
        exact ⟨List.mem_cons_of_mem _ hm, hne⟩

theorem mem_mset {κ α : Type} [DecidableEq κ] {k : κ} {v : α} {p : κ × α} :
    ∀ {l : List (κ × α)}, p ∈ mset k v l → p = (k, v) ∨ p ∈ l := by
  intro l h
  induction l with
  | nil => simp [mset] at h; exact Or.inl h
  | cons q qs ih =>
    obtain ⟨q1, q2⟩ := q
    by_cases hq : q1 = k
    · simp only [mset, hq, if_pos] at h
      rcases List.mem_cons.mp h with h1 | h2
      · exact Or.inl h1
      · exact Or.inr (List.mem_cons_of_mem _ h2)
    · simp only [mset, hq, if_neg, if_false] at h
      rcases List.mem_cons.mp h with h1 | h2
      · subst h1; exact Or.inr (List.mem_cons_self _ _)
      · rcases ih h2 with h3 | h4
        · exact Or.inl h3
        · exact Or.inr (List.mem_cons_of_mem _ h4)

theorem mfind_mset_self {κ α : Type} [DecidableEq κ] (k : κ) (v : α) :
    ∀ (l : List (κ × α)), mfind k (mset k v l) = some v := by
  intro l
  induction l with
  | nil => simp [mset, mfind]
  | cons q qs ih =>
    obtain ⟨q1, q2⟩ := q
    by_cases hq : q1 = k
    · simp [mset, mfind, hq]
    · simp [mset, mfind, hq, ih]

theorem mfind_mset_ne {κ α : Type} [DecidableEq κ] {k k2 : κ} (v : α)
    (hne : k2 ≠ k) : ∀ (l : List (κ × α)), mfind k2 (mset k v l) = mfind k2 l := by
  intro l
  have hne2 : ¬ k = k2 := fun h => hne h.symm
  induction l with
  | nil => simp [mset, mfind, hne2]
  | cons q qs ih =>
    obtain ⟨q1, q2⟩ := q
    by_cases hq : q1 = k
    · subst hq
      simp [mset, mfind, hne2]
    · by_cases hq2 : q1 = k2
      · simp [mset, mfind, hq, hq2, hne]
      · simp [mset, mfind, hq, hq2, ih]

theorem keys_mset_mem {κ α : Type} [DecidableEq κ] {k : κ} (v : α) :
    ∀ {l : List (κ × α)}, k ∈ keysOf l → keysOf (mset k v l) = keysOf l := by
  intro l h
  induction l with
  | nil => simp [keysOf] at h
  | cons q qs ih =>
    obtain ⟨q1, q2⟩ := q
    by_cases hq : q1 = k
    · simp [mset, keysOf, hq]
    · have h2 : k ∈ keysOf qs := by
        simp only [keysOf, List.map_cons] at h
        rcases List.mem_cons.mp h with h1 | h1
        · exact absurd h1.symm hq
        · exact h1
      simp only [mset, hq, if_neg, if_false, keysOf, List.map_cons]
      have h3 := ih h2
      simp only [keysOf] at h3
      rw [h3]

theorem keys_mset_not_mem {κ α : Type} [DecidableEq κ] {k : κ} (v : α) :
    ∀ {l : List (κ × α)}, k ∉ keysOf l → keysOf (mset k v l) = keysOf l ++ [k] := by
  intro l h
  induction l with
  | nil => simp [mset, keysOf]
  | cons q qs ih =>
    obtain ⟨q1, q2⟩ := q
    simp only [keysOf, List.map_cons, List.mem_cons] at h
    push_neg at h
    have hq : ¬ q1 = k := fun he => h.1 he.symm
    simp only [mset, hq, if_neg, if_false, keysOf, List.map_cons]
    have h3 := ih (by simpa [keysOf] using h.2)
    simp only [keysOf] at h3
    rw [h3]
    rfl

theorem nodup_keys_mset {κ α : Type} [DecidableEq κ] {k : κ} (v : α)
    {l : List (κ × α)} (hnd : (keysOf l).Nodup) : (keysOf (mset k v l)).Nodup := by
  by_cases h : k ∈ keysOf l
  · rw [keys_mset_mem v h]; exact hnd
  · rw [keys_mset_not_mem v h]
    simp [List.nodup_append, hnd, h]

theorem mem_mset_nodup {κ α : Type} [DecidableEq κ] {k : κ} {v : α} {p : κ × α} :
    ∀ {l : List (κ × α)}, (keysOf l).Nodup → p ∈ mset k v l →
      p = (k, v) ∨ (p ∈ l ∧ p.1 ≠ k) := by
  intro l hnd h
  induction l with
  | nil => simp [mset] at h; exact Or.inl h
  | cons q qs ih =>
    obtain ⟨q1, q2⟩ := q
    simp only [keysOf, List.map_cons, List.nodup_cons] at hnd
    by_cases hq : q1 = k
    · simp only [mset, hq, if_pos] at h
      rcases List.mem_cons.mp h with h1 | h2
      · exact Or.inl h1
      · refine Or.inr ⟨List.mem_cons_of_mem _ h2, ?_⟩
        intro hpk
        exact hnd.1 (hq ▸ hpk ▸ List.mem_map_of_mem Prod.fst h2)
    · simp only [mset, hq, if_neg, if_false] at h
      rcases List.mem_cons.mp h with h1 | h2
      · subst h1; exact Or.inr ⟨List.mem_cons_self _ _, hq⟩
      · rcases ih hnd.2 h2 with h3 | ⟨hm, hne⟩
        · exact Or.inl h3
        · exact Or.inr ⟨List.mem_cons_of_mem _ hm, hne⟩

theorem length_keysOf {κ α : Type} (l : List (κ × α)) : (keysOf l).length = l.length :=
  List.length_map l Prod.fst

/-! ## Claim C2: the scheduled cleanup runs -/

/-- Claim C2 (code bug): after `start()`, every periodically triggered
`runCleanup` is skipped, even with no sweep in progress.  `start()` sets
`isRunning = true` (cleanupJob.js line 27) and only `runCleanup`'s own
`finally` block ever clears it, which the early-return path never
reaches, so the guard at cleanupJob.js line 51 fires on every tick and
the sweep never executes — contradicting the claim that a run is skipped
only while another sweep is in progress. -/
theorem c2_all_scheduled_runs_skipped (now1 now2 : Nat) (j : JobState) (st : RepoState) :
    (JobState.start now1 j).isRunning = true ∧
    runCleanup now2 (JobState.start now1 j) st =
      (CleanupOutcome.skipped, JobState.start now1 j, st) := by
  constructor
  · rfl
  · simp [runCleanup, JobState.start]

/-! ## Claim C4: the manual cleanup trigger -/

/-- Claim C4, counterexample: with a sweep flagged as in progress
(`isRunning = true`) and one expired record in the store,
`runManualCleanup` still executes the sweep — it deletes the record and
reports one deletion instead of skipping. -/
theorem c4_counterexample :
    (runManualCleanup 50 ⟨true, none, none⟩ stExpired).1 = 1 ∧
    (runManualCleanup 50 ⟨true, none, none⟩ stExpired).2.2.urls = [] := by
  constructor <;> rfl

/-- Claim C4 as amended: `runManualCleanup` is not protected by the
re-entrancy guard: it invokes the service's `cleanupExpiredUrls`
unconditionally, whatever the value of `isRunning`, and leaves the job
state untouched. -/
theorem c4_manual_cleanup_unguarded (now : Nat) (j : JobState) (st : RepoState) :
    runManualCleanup now j st =
      ((UrlService.cleanupExpiredUrls now st).1, j,
        (UrlService.cleanupExpiredUrls now st).2) := rfl

/-! ## Claim C9: getTimeUntilExpiry -/

/-- Claim C9, counterexample: a record expired by half a minute
(`expiresAt = 0`, `now = 30000`) is expired yet `getTimeUntilExpiry`
returns 0, which is not strictly negative (moment's `diff` truncates
toward zero). -/
theorem c9_counterexample :
    uJustExpired.isExpired 30000 = true ∧
    uJustExpired.getTimeUntilExpiry 30000 = some 0 ∧
    ¬ ((0 : Int) < 0) := by
  refine ⟨by decide, by decide, by decide⟩

/-- Casting a quotient of naturals into the integers agrees with
truncating division. -/
theorem natCast_tdiv (m n : Nat) : Int.tdiv (m : Int) (n : Int) = ((m / n : Nat) : Int) := rfl

/-- Claim C9 as amended: `getTimeUntilExpiry` returns `null` when no
expiry is set, and otherwise the millisecond difference
`expiresAt - now` divided by 60000 truncated toward zero: the result is
nonpositive on an expired record, and strictly negative only once the
record is at least one full minute past `expiresAt` (an expiry in the
last 59999 ms yields 0). -/
theorem c9_minutes_truncated_toward_zero (now : Nat) (u : ShortUrl) :
    (u.expiresAt = none → u.getTimeUntilExpiry now = none) ∧
    (∀ e, u.expiresAt = some e →
      u.getTimeUntilExpiry now = some (Int.tdiv ((e : Int) - (now : Int)) 60000) ∧
      (e < now → Int.tdiv ((e : Int) - (now : Int)) 60000 ≤ 0) ∧
      (e + 60000 ≤ now → Int.tdiv ((e : Int) - (now : Int)) 60000 < 0)) := by
  refine ⟨?_, ?_⟩
  · intro h
    simp [ShortUrl.getTimeUntilExpiry, h]
  · intro e he
    refine ⟨by simp [ShortUrl.getTimeUntilExpiry, he], ?_, ?_⟩
    · intro hlt
      have hcast : (e : Int) - (now : Int) = -(((now - e : Nat)) : Int) := by
        rw [Nat.cast_sub (Nat.le_of_lt hlt)]
        ring
      have h2 : Int.tdiv (((now - e : Nat)) : Int) (60000 : Int) =
          (((now - e) / 60000 : Nat) : Int) := rfl
      rw [hcast, Int.neg_tdiv, h2]
      omega
    · intro hge
      have hcast : (e : Int) - (now : Int) = -(((now - e : Nat)) : Int) := by
        rw [Nat.cast_sub (by omega : e ≤ now)]
        ring
      have h2 : Int.tdiv (((now - e : Nat)) : Int) (60000 : Int) =
          (((now - e) / 60000 : Nat) : Int) := rfl
      rw [hcast, Int.neg_tdiv, h2]
      have h1 : 1 ≤ (now - e) / 60000 := (Nat.one_le_div_iff (by decide)).mpr (by omega)
      omega

/-- Witness for `c9_minutes_truncated_toward_zero`: a record one full
minute past expiry yields `some (-1)`. -/
theorem c9_witness :
    uJustExpired.getTimeUntilExpiry 60000 =
      some (Int.tdiv ((0 : Int) - (60000 : Int)) 60000) ∧
    Int.tdiv ((0 : Int) - (60000 : Int)) 60000 ≤ 0 ∧
    Int.tdiv ((0 : Int) - (60000 : Int)) 60000 < 0 := by
  have h := (c9_minutes_truncated_toward_zero 60000 uJustExpired).2 0 rfl
  exact ⟨h.1, h.2.1 (by decide), h.2.2 (by decide)⟩

/-! ## Claim C3: shortcode relocation in update -/

/-- Claim C3 (code bug): the relocation branch of `update` is dead code.
`Object.assign(shortUrl, updateData)` runs before the comparison
`updateData.shortcode !== shortUrl.shortcode` (urlRepository.js lines
116-119), so the compared values are always equal and the index/cache
relocation never executes: the shortcode index is exactly what
`findById` left, for every input.  Concretely, updating the record with
id 1 and shortcode "a" to shortcode "b" leaves the index mapping "a" to
1, never indexes "b", yet returns a record whose shortcode is "b". -/
theorem c3_relocation_branch_dead :
    (∀ now id p st, (RepoState.update now id p st).2.shortcodeIndex =
      (RepoState.findById now id st).2.shortcodeIndex) ∧
    ((RepoState.update 0 1 ⟨some "b", none⟩ stNoExpiry).1).map ShortUrl.shortcode = some "b" ∧
    mfind "b" (RepoState.update 0 1 ⟨some "b", none⟩ stNoExpiry).2.shortcodeIndex = none ∧
    mfind "a" (RepoState.update 0 1 ⟨some "b", none⟩ stNoExpiry).2.shortcodeIndex = some 1 := by
  refine ⟨?_, by decide, by decide, by decide⟩
  intro now id p st
  unfold RepoState.update
  rcases hf : RepoState.findById now id st with ⟨o, st1⟩
  cases o with
  | none => simp
  | some u =>
    cases hp : p.shortcode with
    | none => simp [hp]
    | some c =>
      have hpatch : (applyPatch p u).shortcode = c := by
        simp [applyPatch, hp]
      simp [hp, hpatch]

/-! ## Claim C1: lookup never returns an expired record -/

/-- Claim C1, counterexample: a record expired at `now = 50`
(`expiresAt = 10`) that is still held by a cache entry whose own TTL has
not elapsed is returned by `findByShortcode` — the cache-hit path
(urlRepository.js lines 47-52) performs no record-expiry check. -/
theorem c1_counterexample :
    (RepoState.findByShortcode 50 "a" stCachedExpired).1 = some uExpired ∧
    uExpired.isExpired 50 = true := by
  refine ⟨by decide, by decide⟩

/-- Claim C1 as amended: `findByShortcode` never returns an expired
record when the cache lookup misses (no entry, or an entry past its own
TTL): on that path an expired record is deleted and the call returns
nothing.  A record served from a still-live cache entry is returned
without any record-expiry check and may therefore be expired. -/
theorem c1_miss_path_never_returns_expired (now : Nat) (code : String) (st : RepoState)
    (u : ShortUrl) (hmiss : (UrlCache.get now code st.cache).1 = none)
    (hret : (RepoState.findByShortcode now code st).1 = some u) :
    u.isExpired now = false := by
  unfold RepoState.findByShortcode at hret
  rcases hg : UrlCache.get now code st.cache with ⟨o, c1⟩
  rw [hg] at hret hmiss
  simp at hmiss
  subst hmiss
  simp only at hret
  rcases hidx : mfind code st.shortcodeIndex with _ | urlId
  · simp [hidx] at hret
  · simp only [hidx] at hret
    rcases hurl : mfind urlId st.urls with _ | w
    · simp [hurl] at hret
    · simp only [hurl] at hret
      rcases hexp : w.isExpired now with _ | _
      · simp [hexp] at hret
        rw [← hret]
        exact hexp
      · simp [hexp] at hret

/-- Witness for `c1_miss_path_never_returns_expired`: a live record with
an empty cache is found through the miss path and is not expired. -/
theorem c1_witness : uLive.isExpired 5 = false :=
  c1_miss_path_never_returns_expired 5 "a" stLive uLive (by decide) (by decide)

/-! ## Claim C10: refreshing an existing key at capacity -/

/-- Claim C10: `set` checks `size >= maxSize` before looking at the key
(urlCache.js lines 17-21), so at capacity a `set` on an already-present
key that is not the oldest entry still evicts the oldest-inserted entry
and then overwrites the existing key in place, leaving the cache at
`maxSize - 1` entries. -/
theorem c10_refresh_at_capacity_evicts (c : UrlCache) (now : Nat) (k : String)
    (v : ShortUrl) (k0 : String) (e0 : CacheEntry) (es : List (String × CacheEntry))
    (hents : c.entries = (k0, e0) :: es)
    (hfull : c.entries.length = c.maxSize)
    (hnd : (keysOf c.entries).Nodup)
    (hmem : k ∈ keysOf c.entries)
    (hne : k ≠ k0) :
    (UrlCache.set now k v c).entries.length = c.maxSize - 1 ∧
    k0 ∉ keysOf (UrlCache.set now k v c).entries ∧
    k ∈ keysOf (UrlCache.set now k v c).entries := by
  have hcap : c.maxSize ≤ c.entries.length := Nat.le_of_eq hfull.symm
  have hdel : mdel k0 ((k0, e0) :: es) = es := by simp [mdel]
  have hcap2 : c.maxSize ≤ ((k0, e0) :: es).length := hents ▸ hcap
  have hset : (UrlCache.set now k v c).entries = mset k ⟨v, now, now + c.ttl⟩ es := by
    simp only [UrlCache.set, hents, if_pos hcap2]
    rw [hdel]
  have hkes : k ∈ keysOf es := by
    rw [hents] at hmem
    simp only [keysOf, List.map_cons] at hmem
    rcases List.mem_cons.mp hmem with h1 | h1
    · exact absurd h1 hne
    · exact h1
  have hkeys : keysOf (mset k ⟨v, now, now + c.ttl⟩ es) = keysOf es :=
    keys_mset_mem _ hkes
  have hk0 : k0 ∉ keysOf es := by
    rw [hents] at hnd
    simp only [keysOf, List.map_cons, List.nodup_cons] at hnd
    exact hnd.1
  refine ⟨?_, ?_, ?_⟩
  · rw [← length_keysOf, hset, hkeys, length_keysOf]
    rw [hents] at hfull
    simp at hfull
    omega
  · rw [hset, hkeys]
    exact hk0
  · rw [hset, hkeys]
    exact hkes

/-- Witness for `c10_refresh_at_capacity_evicts`: a capacity-2 cache
holding keys "a" then "b"; refreshing "b" evicts "a" and leaves one
entry. -/
theorem c10_witness :
    (UrlCache.set 5 "b" uLive cacheFullW).entries.length = cacheFullW.maxSize - 1 ∧
    "a" ∉ keysOf (UrlCache.set 5 "b" uLive cacheFullW).entries ∧
    "b" ∈ keysOf (UrlCache.set 5 "b" uLive cacheFullW).entries :=
  c10_refresh_at_capacity_evicts cacheFullW 5 "b" uLive "a" cacheEntryW
    [("b", cacheEntryW)] rfl (by decide) (by decide) (by decide) (by decide)

/-! ## Claim C8: cleanup idempotence -/

/-- Membership in the primary map after `delete`: in a state whose ids
are distinct, every surviving entry was already present and does not
carry the deleted id. -/
theorem mem_delete_urls {id : Nat} {p : Nat × ShortUrl} {st : RepoState}
    (hnd : (keysOf st.urls).Nodup) (h : p ∈ (st.delete id).2.urls) :
    p ∈ st.urls ∧ p.1 ≠ id := by
  unfold RepoState.delete at h
  rcases hf : mfind id st.urls with _ | u
  · rw [hf] at h
    simp only at h
    exact ⟨h, mfind_eq_none_forall hf p h⟩
  · rw [hf] at h
    simp only at h
    exact mem_mdel_ne hnd h

theorem nodup_delete_urls {id : Nat} {st : RepoState}
    (hnd : (keysOf st.urls).Nodup) : (keysOf (st.delete id).2.urls).Nodup := by
  unfold RepoState.delete
  rcases hf : mfind id st.urls with _ | u
  · simpa using hnd
  · simpa using nodup_keys_mdel hnd

/-- After one pass of the cleanup loop, no record reachable in the swept
state is expired, provided every expired record of the incoming state is
still scheduled in the remaining iteration list. -/
theorem cleanupLoop_clears (now : Nat) :
    ∀ (l : List (Nat × ShortUrl)) (st : RepoState) (cnt : Nat),
      (keysOf st.urls).Nodup →
      (∀ p ∈ st.urls, p.2.isExpired now = true → p ∈ l) →
      ∀ p ∈ (cleanupLoop now l st cnt).1.urls, p.2.isExpired now = false := by
  intro l
  induction l with
  | nil =>
    intro st cnt hnd hsub p hp
    simp only [cleanupLoop] at hp
    rcases hexp : p.2.isExpired now with _ | _
    · rfl
    · exact absurd (hsub p hp hexp) (List.not_mem_nil _)
  | cons q rest ih =>
    intro st cnt hnd hsub
    obtain ⟨id, u⟩ := q
    rcases hexp : u.isExpired now with _ | _
    · simp only [cleanupLoop, hexp, if_neg, if_false]
      refine ih st cnt hnd ?_
      intro p hp hpe
      rcases List.mem_cons.mp (hsub p hp hpe) with h1 | h2
      · rw [h1] at hpe
        simp only at hpe
        rw [hexp] at hpe
        exact absurd hpe (by decide)
      · exact h2
    · simp only [cleanupLoop, hexp, if_pos]
      refine ih (st.delete id).2 (cnt + 1) (nodup_delete_urls hnd) ?_
      intro p hp hpe
      rcases mem_delete_urls hnd hp with ⟨hmem, hne⟩
      rcases List.mem_cons.mp (hsub p hmem hpe) with h1 | h2
      · exact absurd (congrArg Prod.fst h1) hne
      · exact h2

/-- The cleanup loop is the identity on a state when nothing in its
iteration list is expired. -/
theorem cleanupLoop_of_none_expired (now : Nat) :
    ∀ (l : List (Nat × ShortUrl)) (st : RepoState) (cnt : Nat),
      (∀ p ∈ l, p.2.isExpired now = false) →
      cleanupLoop now l st cnt = (st, cnt) := by
  intro l
  induction l with
  | nil => intro st cnt _; rfl
  | cons q rest ih =>
    intro st cnt h
    obtain ⟨id, u⟩ := q
    have hexp : u.isExpired now = false := h (id, u) (List.mem_cons_self _ _)
    simp only [cleanupLoop, hexp, if_neg, if_false]
    exact ih st cnt (fun p hp => h p (List.mem_cons_of_mem _ hp))

/-- Claim C8: `cleanupExpiredUrls` is idempotent under an unchanged
clock: the first sweep deletes every expired record, so an immediately
repeated sweep (same `now`) deletes nothing and returns 0. -/
theorem c8_cleanup_idempotent (now : Nat) (st : RepoState)
    (hnd : (keysOf st.urls).Nodup) :
    (UrlService.cleanupExpiredUrls now (UrlService.cleanupExpiredUrls now st).2).1 = 0 := by
  simp only [UrlService.cleanupExpiredUrls, RepoState.cleanup]
  have hclear :=
    cleanupLoop_clears now st.urls st 0 hnd (fun p hp _ => hp)
  exact congrArg Prod.snd
    (cleanupLoop_of_none_expired now (cleanupLoop now st.urls st 0).1.urls
      (cleanupLoop now st.urls st 0).1 0 hclear)

/-- Witness for `c8_cleanup_idempotent`: sweeping a store holding one
expired record twice returns 0 the second time. -/
theorem c8_witness :
    (UrlService.cleanupExpiredUrls 50 (UrlService.cleanupExpiredUrls 50 stExpired).2).1 = 0 :=
  c8_cleanup_idempotent 50 stExpired (by decide)

/-! ## Claim C6: generateUniqueShortcode -/

/-- Every generated code has the configured length. -/
theorem generateShortcode_length (len : Nat) (rand1 : Nat → Nat) :
    (generateShortcode len rand1).length = len := by
  simp [generateShortcode, String.length]

/-- Every character of a generated code comes from the alphanumeric
alphabet. -/
theorem generateShortcode_chars (len : Nat) (rand1 : Nat → Nat) :
    ∀ ch ∈ (generateShortcode len rand1).data, ch ∈ shortcodeChars := by
  intro ch hch
  simp only [generateShortcode] at hch
  rcases List.mem_map.mp hch with ⟨i, _, hi⟩
  rw [← hi]
  exact List.get_mem _ _ _

/-- The success behaviour of the retry loop of `generateUniqueShortcode`:
a returned code is the one drawn on some attempt `i` within the budget,
the collision check at attempt `i` found nothing, and every earlier
attempt collided. -/
theorem genUniqueGo_some (now len : Nat) (rand : Nat → Nat → Nat) (st : RepoState) :
    ∀ (fuel a : Nat) (code : String) (stf : RepoState),
      genUniqueGo now len rand fuel a (c6StateAt now len rand st a) = some (code, stf) →
      ∃ i, a ≤ i ∧ i < a + fuel ∧ code = c6CodeAt len rand i ∧
        (RepoState.findByShortcode now (c6CodeAt len rand i)
          (c6StateAt now len rand st i)).1 = none ∧
        ∀ j, a ≤ j → j < i →
          (RepoState.findByShortcode now (c6CodeAt len rand j)
            (c6StateAt now len rand st j)).1 ≠ none := by
  intro fuel
  induction fuel with
  | zero => intro a code stf h; simp [genUniqueGo] at h
  | succ f ih =>
    intro a code stf h
    simp only [genUniqueGo] at h
    rcases hfa : RepoState.findByShortcode now (generateShortcode len (rand a))
        (c6StateAt now len rand st a) with ⟨o, st1⟩
    rw [hfa] at h
    cases o with
    | none =>
      simp only at h
      have h2 : (generateShortcode len (rand a), st1) = (code, stf) := Option.some.inj h
      have hcode : code = generateShortcode len (rand a) := (congrArg Prod.fst h2).symm
      refine ⟨a, Nat.le_refl a, by omega, hcode, ?_, ?_⟩
      · rw [c6CodeAt, hfa]
      · intro j hj1 hj2; omega
    | some u =>
      simp only at h
      have hst1 : st1 = c6StateAt now len rand st (a + 1) := by
        simp only [c6StateAt, c6CodeAt]
        rw [hfa]
      rw [hst1] at h
      rcases ih (a + 1) code stf h with ⟨i, hi1, hi2, hi3, hi4, hi5⟩
      refine ⟨i, by omega, by omega, hi3, hi4, ?_⟩
      intro j hj1 hj2
      rcases Nat.eq_or_lt_of_le hj1 with hj | hj
      · rw [← hj, c6CodeAt, hfa]
        simp
      · exact hi5 j (by omega) hj2
  
/-- The exhaustion behaviour of the retry loop: when every attempt in the
budget collides, the loop returns nothing. -/
theorem genUniqueGo_exhaust (now len : Nat) (rand : Nat → Nat → Nat) (st : RepoState) :
    ∀ (fuel a : Nat),
      (∀ i, a ≤ i → i < a + fuel →
        (RepoState.findByShortcode now (c6CodeAt len rand i)
          (c6StateAt now len rand st i)).1 ≠ none) →
      genUniqueGo now len rand fuel a (c6StateAt now len rand st a) = none := by
  intro fuel
  induction fuel with
  | zero => intro a _; rfl
  | succ f ih =>
    intro a hall
    simp only [genUniqueGo]
    rcases hfa : RepoState.findByShortcode now (generateShortcode len (rand a))
        (c6StateAt now len rand st a) with ⟨o, st1⟩
    cases o with
    | none =>
      have := hall a (Nat.le_refl a) (by omega)
      rw [c6CodeAt, hfa] at this
      simp at this
    | some u =>
      simp only
      have hst1 : st1 = c6StateAt now len rand st (a + 1) := by
        simp only [c6StateAt, c6CodeAt]
        rw [hfa]
      rw [hst1]
      exact ih (a + 1) (fun i h1 h2 => hall i (by omega) (by omega))

/-- Claim C6: `generateUniqueShortcode` draws random alphanumeric codes
of the configured length and checks each with `findByShortcode`; a
successful result is the first drawn code whose check found no record,
reached within at most 10 attempts; when all 10 drawn codes collide the
call fails (the thrown exhaustion error, modelled as `none`). -/
theorem c6_generate_unique_shortcode (now len : Nat) (rand : Nat → Nat → Nat)
    (st : RepoState) :
    (∀ code stf, UrlService.generateUniqueShortcode now len rand st = some (code, stf) →
      code.length = len ∧ (∀ ch ∈ code.data, ch ∈ shortcodeChars) ∧
      ∃ i, i < 10 ∧ code = c6CodeAt len rand i ∧
        (RepoState.findByShortcode now (c6CodeAt len rand i)
          (c6StateAt now len rand st i)).1 = none ∧
        ∀ j, j < i →
          (RepoState.findByShortcode now (c6CodeAt len rand j)
            (c6StateAt now len rand st j)).1 ≠ none) ∧
    ((∀ i, i < 10 →
        (RepoState.findByShortcode now (c6CodeAt len rand i)
          (c6StateAt now len rand st i)).1 ≠ none) →
      UrlService.generateUniqueShortcode now len rand st = none) := by
  constructor
  · intro code stf h
    have h0 : genUniqueGo now len rand 10 0 (c6StateAt now len rand st 0) =
        some (code, stf) := h
    rcases genUniqueGo_some now len rand st 10 0 code stf h0 with
      ⟨i, _, hi2, hi3, hi4, hi5⟩
    have hlen : code.length = len := by rw [hi3]; exact generateShortcode_length _ _
    have hchars : ∀ ch ∈ code.data, ch ∈ shortcodeChars := by
      rw [hi3]; exact generateShortcode_chars _ _
    exact ⟨hlen, hchars, i, by omega, hi3, hi4, fun j hj => hi5 j (Nat.zero_le j) hj⟩
  · intro hall
    exact genUniqueGo_exhaust now len rand st 10 0
      (fun i h1 h2 => hall i (by omega))

/-- Witness for `c6_generate_unique_shortcode`: on an empty repository
the first draw (all random indices 0, length 3) is unique, producing
"AAA" on attempt 0. -/
theorem c6_witness :
    "AAA".length = 3 ∧ (∀ ch ∈ "AAA".data, ch ∈ shortcodeChars) ∧
    ∃ i, i < 10 ∧ "AAA" = c6CodeAt 3 (fun _ _ => 0) i ∧
      (RepoState.findByShortcode 0 (c6CodeAt 3 (fun _ _ => 0) i)
        (c6StateAt 0 3 (fun _ _ => 0) stEmpty i)).1 = none ∧
      ∀ j, j < i →
        (RepoState.findByShortcode 0 (c6CodeAt 3 (fun _ _ => 0) j)
          (c6StateAt 0 3 (fun _ _ => 0) stEmpty j)).1 ≠ none :=
  (c6_generate_unique_shortcode 0 3 (fun _ _ => 0) stEmpty).1 "AAA" stEmpty (by decide)

/-! ## Claim C5: FIFO eviction of the bounded cache -/

/-- A read leaves the cache untouched when no stored entry has passed its
expiry bound at the read time. -/
theorem cacheGet_noop (t : Nat) (k : String) (c : UrlCache) (B : Nat)
    (hinv : ∀ q ∈ c.entries, B ≤ q.2.expiresAt) (ht : t ≤ B) :
    (UrlCache.get t k c).2 = c := by
  unfold UrlCache.get
  rcases hf : mfind k c.entries with _ | e
  · rfl
  · have hB : B ≤ e.expiresAt := hinv (k, e) (mfind_eq_some_mem hf)
    have : ¬ e.expiresAt < t := by omega
    simp [this]

/-- An insert preserves the lower bound on stored expiry times when its
own timestamp is late enough. -/
theorem cacheSet_bound (t : Nat) (k : String) (v : ShortUrl) (c : UrlCache) (B : Nat)
    (hinv : ∀ q ∈ c.entries, B ≤ q.2.expiresAt) (ht : B ≤ t + c.ttl) :
    ∀ q ∈ (UrlCache.set t k v c).entries, B ≤ q.2.expiresAt := by
  intro q hq
  unfold UrlCache.set at hq
  simp only at hq
  rcases mem_mset hq with h1 | h2
  · rw [h1]
    exact ht
  · by_cases hcap : c.maxSize ≤ c.entries.length
    · rw [if_pos hcap] at h2
      rcases hes : c.entries with _ | ⟨p, ps⟩
      · rw [hes] at h2; simp at h2
      · rw [hes] at h2
        exact hinv q (hes ▸ mem_mdel h2)
    · rw [if_neg hcap] at h2
      exact hinv q h2

/-- Inserts do not change `maxSize` or `ttl`. -/
theorem cacheSet_maxSize (t : Nat) (k : String) (v : ShortUrl) (c : UrlCache) :
    (UrlCache.set t k v c).maxSize = c.maxSize := rfl

theorem cacheSet_ttl (t : Nat) (k : String) (v : ShortUrl) (c : UrlCache) :
    (UrlCache.set t k v c).ttl = c.ttl := rfl

/-- With every operation timestamped inside the window `[t0, t0 + ttl]`,
reads are no-ops and a run of operations collapses to the run of its
inserts. -/
theorem runCacheOps_eq_runSets (t0 : Nat) :
    ∀ (ops : List CacheOp) (c : UrlCache),
      (∀ q ∈ c.entries, t0 + c.ttl ≤ q.2.expiresAt) →
      (∀ op ∈ ops, t0 ≤ op.time ∧ op.time ≤ t0 + c.ttl) →
      runCacheOps ops c = runSets (setsOf ops) c := by
  intro ops
  induction ops with
  | nil => intro c _ _; rfl
  | cons op rest ih =>
    intro c hinv htime
    cases op with
    | getOp t k =>
      have hno : (UrlCache.get t k c).2 = c :=
        cacheGet_noop t k c (t0 + c.ttl) hinv
          (htime (CacheOp.getOp t k) (List.mem_cons_self _ _)).2
      simp only [runCacheOps, setsOf, hno]
      exact ih c hinv (fun o ho => htime o (List.mem_cons_of_mem _ ho))
    | setOp t k v =>
      simp only [runCacheOps, setsOf, runSets]
      have ht := htime (CacheOp.setOp t k v) (List.mem_cons_self _ _)
      refine ih (c.set t k v) ?_ ?_
      · rw [cacheSet_ttl]
        refine cacheSet_bound t k v c (t0 + c.ttl) hinv ?_
        have : t0 ≤ t := ht.1
        omega
      · rw [cacheSet_ttl]
        exact fun o ho => htime o (List.mem_cons_of_mem _ ho)

/-- Filling a cache with fresh, pairwise-distinct keys within capacity
appends them in insertion order without evicting anything. -/
theorem runSets_fill :
    ∀ (l : List (Nat × String × ShortUrl)) (c : UrlCache),
      (keysOf c.entries).Nodup →
      (∀ s ∈ l, s.2.1 ∉ keysOf c.entries) →
      (setKeys l).Nodup →
      c.entries.length + l.length ≤ c.maxSize →
      keysOf (runSets l c).entries = keysOf c.entries ++ setKeys l ∧
      (runSets l c).maxSize = c.maxSize ∧ (runSets l c).ttl = c.ttl := by
  intro l
  induction l with
  | nil => intro c _ _ _ _; simp [runSets, setKeys]
  | cons s rest ih =>
    intro c hnd hfresh hsknd hcap
    obtain ⟨t, k, v⟩ := s
    have hkfresh : k ∉ keysOf c.entries := hfresh (t, k, v) (List.mem_cons_self _ _)
    have hnocap : ¬ c.maxSize ≤ c.entries.length := by
      simp only [List.length_cons] at hcap
      omega
    have hset : (UrlCache.set t k v c).entries = mset k ⟨v, t, t + c.ttl⟩ c.entries := by
      simp only [UrlCache.set, if_neg hnocap]
    have hkeys : keysOf (UrlCache.set t k v c).entries = keysOf c.entries ++ [k] := by
      rw [hset]
      exact keys_mset_not_mem _ hkfresh
    simp only [setKeys, List.map_cons, List.nodup_cons] at hsknd
    have hrest := ih (c.set t k v) (by rw [hkeys]; simp [List.nodup_append, hnd, hkfresh])
      (by
        intro s2 hs2
        rw [hkeys]
        intro hmem
        rcases List.mem_append.mp hmem with h1 | h1
        · exact hfresh s2 (List.mem_cons_of_mem _ hs2) h1
        · have : s2.2.1 = k := List.mem_singleton.mp h1
          exact hsknd.1 (this ▸ List.mem_map_of_mem (fun s => s.2.1) hs2))
      hsknd.2
      (by
        have hlen : (UrlCache.set t k v c).entries.length = c.entries.length + 1 := by
          rw [← length_keysOf, hkeys, List.length_append, length_keysOf]
          rfl
        rw [hlen, cacheSet_maxSize]
        simp only [List.length_cons] at hcap
        omega)
    simp only [runSets]
    refine ⟨?_, ?_, ?_⟩
    · rw [hrest.1, hkeys]
      simp [setKeys, List.append_assoc]
    · rw [hrest.2.1, cacheSet_maxSize]
    · rw [hrest.2.2, cacheSet_ttl]

/-- Running two insert batches in order is running their concatenation. -/
theorem runSets_append :
    ∀ (a b : List (Nat × String × ShortUrl)) (c : UrlCache),
      runSets (a ++ b) c = runSets b (runSets a c) := by
  intro a
  induction a with
  | nil => intro b c; rfl
  | cons s rest ih =>
    intro b c
    obtain ⟨t, k, v⟩ := s
    simp only [List.cons_append, runSets]
    exact ih b (c.set t k v)

/-- Claim C5: starting from an empty cache of capacity `maxSize = m > 0`,
any operation sequence whose inserts are `m + 1` pairwise-distinct keys
`k0 :: krest` (in insertion order), with arbitrary reads interleaved and
every operation timestamped within the TTL window `[t0, t0 + ttl]`,
leaves exactly `m` entries, and the evicted key is exactly the
first-inserted `k0` — insertion-order FIFO, independent of which keys
were read in between. -/
theorem c5_fifo_eviction (m ttl t0 : Nat) (ops : List CacheOp) (k0 : String)
    (krest : List String)
    (hm : 0 < m)
    (hkeys : setKeys (setsOf ops) = k0 :: krest)
    (hlen : krest.length = m)
    (hnd : (k0 :: krest).Nodup)
    (htime : ∀ op ∈ ops, t0 ≤ op.time ∧ op.time ≤ t0 + ttl) :
    keysOf (runCacheOps ops ⟨m, ttl, []⟩).entries = krest ∧
    (runCacheOps ops ⟨m, ttl, []⟩).entries.length = m ∧
    k0 ∉ keysOf (runCacheOps ops ⟨m, ttl, []⟩).entries := by
  have hk0nd : k0 ∉ krest := (List.nodup_cons.mp hnd).1
  have hkrestnd : krest.Nodup := (List.nodup_cons.mp hnd).2
  have hops : runCacheOps ops ⟨m, ttl, []⟩ = runSets (setsOf ops) ⟨m, ttl, []⟩ :=
    runCacheOps_eq_runSets t0 ops ⟨m, ttl, []⟩ (by intro q hq; simp at hq) htime
  rcases hsets : setsOf ops with _ | ⟨s0, srest⟩
  · rw [hsets] at hkeys
    simp [setKeys] at hkeys
  · rw [hsets] at hkeys
    obtain ⟨ts, ks, vs⟩ := s0
    simp only [setKeys, List.map_cons] at hkeys
    have hks : ks = k0 := (List.cons.injEq _ _ _ _).mp hkeys |>.1
    have hsrest : setKeys srest = krest := (List.cons.injEq _ _ _ _).mp hkeys |>.2
    subst hks
    have hsrlen : srest.length = m := by
      have : (setKeys srest).length = krest.length := by rw [hsrest]
      simpa [setKeys] using this.trans hlen
    have hnocap0 :
        ¬ ((⟨m, ttl, []⟩ : UrlCache).maxSize ≤ (⟨m, ttl, []⟩ : UrlCache).entries.length) := by
      simp
      omega
    have hc1 : (UrlCache.set ts ks vs ⟨m, ttl, []⟩) =
        ⟨m, ttl, [(ks, ⟨vs, ts, ts + ttl⟩)]⟩ := by
      simp [UrlCache.set, hnocap0, mset]
    have hstep1 : runSets ((ts, ks, vs) :: srest) ⟨m, ttl, []⟩ =
        runSets srest ⟨m, ttl, [(ks, ⟨vs, ts, ts + ttl⟩)]⟩ := by
      simp only [runSets]
      rw [hc1]
    have hsplit := List.take_append_drop (m - 1) srest
    have hfill := runSets_fill (srest.take (m - 1)) ⟨m, ttl, [(ks, ⟨vs, ts, ts + ttl⟩)]⟩
      (by simp [keysOf])
      (by
        intro s hs
        simp only [keysOf, List.map_cons, List.map_nil]
        intro hmem
        have hsk : s.2.1 = ks := List.mem_singleton.mp hmem
        have hin : s.2.1 ∈ setKeys srest :=
          List.mem_map_of_mem (fun s => s.2.1) (List.mem_of_mem_take hs)
        rw [hsrest] at hin
        exact hk0nd (hsk ▸ hin))
      (by
        have : setKeys (srest.take (m - 1)) = krest.take (m - 1) := by
          rw [setKeys, List.map_take]
          rw [show List.map (fun s => s.2.1) srest = setKeys srest from rfl, hsrest]
        rw [this]
        exact List.Nodup.sublist (List.take_sublist _ _) hkrestnd)
      (by
        simp only [List.length_singleton, List.length_take]
        omega)
    have htake : keysOf (runSets (srest.take (m - 1))
        ⟨m, ttl, [(ks, ⟨vs, ts, ts + ttl⟩)]⟩).entries = ks :: krest.take (m - 1) := by
      rw [hfill.1]
      simp only [keysOf, List.map_cons, List.map_nil]
      rw [show setKeys (srest.take (m - 1)) = krest.take (m - 1) by
        rw [setKeys, List.map_take]
        rw [show List.map (fun s => s.2.1) srest = setKeys srest from rfl, hsrest]]
      rfl
    have hdlen : (srest.drop (m - 1)).length = 1 := by
      rw [List.length_drop]
      omega
    rcases hdrop : srest.drop (m - 1) with _ | ⟨sl, srem⟩
    · rw [hdrop] at hdlen
      simp at hdlen
    · have hsrem : srem = [] := by
        rw [hdrop] at hdlen
        simpa using hdlen
      subst hsrem
      obtain ⟨tl, kl, vl⟩ := sl
      have hkl : krest.drop (m - 1) = [kl] := by
        rw [← hsrest, setKeys, ← List.map_drop, hdrop]
        rfl
      have hklfresh : kl ∉ krest.take (m - 1) := by
        have hnd2 : (krest.take (m - 1) ++ krest.drop (m - 1)).Nodup := by
          rw [List.take_append_drop]
          exact hkrestnd
        have hdisj := List.disjoint_of_nodup_append hnd2
        intro hmem
        exact hdisj hmem (by rw [hkl]; exact List.mem_singleton.mpr rfl)
      set c2 := runSets (srest.take (m - 1)) ⟨m, ttl, [(ks, ⟨vs, ts, ts + ttl⟩)]⟩ with hc2
      have hc2max : c2.maxSize = m := hfill.2.1
      have hc2ttl : c2.ttl = ttl := hfill.2.2
      have hc2len : c2.entries.length = m := by
        rw [← length_keysOf, htake]
        simp only [List.length_cons, List.length_take]
        omega
      rcases hents2 : c2.entries with _ | ⟨q0, es2⟩
      · rw [hents2] at hc2len
        simp at hc2len
        omega
      · have hq0 : q0.1 = ks ∧ keysOf es2 = krest.take (m - 1) := by
          rw [hents2] at htake
          simp only [keysOf, List.map_cons] at htake
          exact ⟨(List.cons.injEq _ _ _ _).mp htake |>.1,
            (List.cons.injEq _ _ _ _).mp htake |>.2⟩
        have hcap2 : c2.maxSize ≤ c2.entries.length := by omega
        have hmdel : mdel q0.1 (q0 :: es2) = es2 := by
          simp [mdel]
        have hcap3 : c2.maxSize ≤ (q0 :: es2).length := hents2 ▸ hcap2
        have hfinal : (UrlCache.set tl kl vl c2).entries =
            mset kl ⟨vl, tl, tl + c2.ttl⟩ es2 := by
          simp only [UrlCache.set, hents2, if_pos hcap3]
          rw [hmdel]
        have hklkeys : kl ∉ keysOf es2 := by
          rw [hq0.2]
          exact hklfresh
        have hfkeys : keysOf (UrlCache.set tl kl vl c2).entries = krest := by
          rw [hfinal, keys_mset_not_mem _ hklkeys, hq0.2]
          rw [← hkl, List.take_append_drop]
        have hrun : runCacheOps ops ⟨m, ttl, []⟩ = UrlCache.set tl kl vl c2 := by
          rw [hops, hsets, hstep1, ← hsplit, runSets_append, hdrop, ← hc2]
          rfl
        refine ⟨?_, ?_, ?_⟩
        · rw [hrun, hfkeys]
        · rw [hrun, ← length_keysOf, hfkeys, hlen]
        · rw [hrun, hfkeys]
          exact hk0nd

/-- Witness for `c5_fifo_eviction`: capacity 2, TTL 10, inserts of
"a", "b", "c" with reads of "a" and "b" interleaved; the final cache
holds exactly "b" and "c" and "a" is evicted. -/
theorem c5_witness :
    keysOf (runCacheOps [CacheOp.setOp 0 "a" uLive, CacheOp.getOp 3 "a",
      CacheOp.setOp 5 "b" uLive, CacheOp.getOp 6 "b",
      CacheOp.setOp 10 "c" uLive] ⟨2, 10, []⟩).entries = ["b", "c"] ∧
    (runCacheOps [CacheOp.setOp 0 "a" uLive, CacheOp.getOp 3 "a",
      CacheOp.setOp 5 "b" uLive, CacheOp.getOp 6 "b",
      CacheOp.setOp 10 "c" uLive] ⟨2, 10, []⟩).entries.length = 2 ∧
    "a" ∉ keysOf (runCacheOps [CacheOp.setOp 0 "a" uLive, CacheOp.getOp 3 "a",
      CacheOp.setOp 5 "b" uLive, CacheOp.getOp 6 "b",
      CacheOp.setOp 10 "c" uLive] ⟨2, 10, []⟩).entries :=
  c5_fifo_eviction 2 10 0
    [CacheOp.setOp 0 "a" uLive, CacheOp.getOp 3 "a", CacheOp.setOp 5 "b" uLive,
      CacheOp.getOp 6 "b", CacheOp.setOp 10 "c" uLive]
    "a" ["b", "c"] (by decide) (by decide) (by decide) (by decide) (by decide)

/-! ## Claim C7: click accumulation -/

/-- `recordOf` only reads the index and the primary map. -/
theorem recordOf_set_cache (code : String) (C : UrlCache) (st : RepoState) :
    recordOf code { st with cache := C } = recordOf code st := rfl

/-- What a well-formed state knows about the record behind a shortcode. -/
theorem recordOf_facts {code : String} {st : RepoState} {u : ShortUrl}
    (hc : Consistent st) (hrec : recordOf code st = some u) :
    u.shortcode = code ∧ mfind code st.shortcodeIndex = some u.id ∧
      mfind u.id st.urls = some u := by
  unfold recordOf at hrec
  rcases hidx : mfind code st.shortcodeIndex with _ | id0
  · rw [hidx] at hrec
    simp at hrec
  · rw [hidx] at hrec
    simp only at hrec
    have hid : u.id = id0 := hc.1 (id0, u) (mfind_eq_some_mem hrec)
    have hix := hc.2.1 (code, id0) (mfind_eq_some_mem hidx)
    have hshort : u.shortcode = code := by
      have := hix.1
      rw [hrec] at this
      simpa using this
    refine ⟨hshort, ?_, ?_⟩
    · rw [hid]
    · rw [hid]
      exact hrec

/-- Membership after a cache insert. -/
theorem mem_cacheSet {now : Nat} {k : String} {v : ShortUrl} {c : UrlCache}
    {q : String × CacheEntry} (hq : q ∈ (UrlCache.set now k v c).entries) :
    q = (k, ⟨v, now, now + c.ttl⟩) ∨ q ∈ c.entries := by
  unfold UrlCache.set at hq
  simp only at hq
  rcases mem_mset hq with h | h
  · exact Or.inl h
  · by_cases hcap : c.maxSize ≤ c.entries.length
    · rw [if_pos hcap] at h
      rcases hes : c.entries with _ | ⟨p, ps⟩
      · rw [hes] at h
        simp at h
      · rw [hes] at h
        simp only at h
        exact Or.inr (mem_mdel h)
    · rw [if_neg hcap] at h
      exact Or.inr h

/-- Key distinctness survives a cache insert. -/
theorem nodup_cacheSet {now : Nat} {k : String} {v : ShortUrl} {c : UrlCache}
    (hnd : (keysOf c.entries).Nodup) :
    (keysOf (UrlCache.set now k v c).entries).Nodup := by
  unfold UrlCache.set
  simp only
  by_cases hcap : c.maxSize ≤ c.entries.length
  · rw [if_pos hcap]
    rcases hes : c.entries with _ | ⟨p, ps⟩
    · exact nodup_keys_mset _ (by simp [keysOf])
    · exact nodup_keys_mset _ (nodup_keys_mdel (hes ▸ hnd))
  · rw [if_neg hcap]
    exact nodup_keys_mset _ hnd

/-- Membership after a cache insert, sharpened by key distinctness: a
surviving old entry cannot carry the inserted key. -/
theorem mem_cacheSet_nodup {now : Nat} {k : String} {v : ShortUrl} {c : UrlCache}
    {q : String × CacheEntry} (hnd : (keysOf c.entries).Nodup)
    (hq : q ∈ (UrlCache.set now k v c).entries) :
    q = (k, ⟨v, now, now + c.ttl⟩) ∨ (q ∈ c.entries ∧ q.1 ≠ k) := by
  unfold UrlCache.set at hq
  simp only at hq
  by_cases hcap : c.maxSize ≤ c.entries.length
  · rw [if_pos hcap] at hq
    rcases hes : c.entries with _ | ⟨p, ps⟩
    · rw [hes] at hq
      simp only [mdel] at hq
      rcases mem_mset_nodup (by simp [keysOf]) hq with h | ⟨h, _⟩
      · exact Or.inl h
      · simp at h
    · rw [hes] at hq
      simp only at hq
      rcases mem_mset_nodup (nodup_keys_mdel (hes ▸ hnd)) hq with h | ⟨h, hne⟩
      · exact Or.inl h
      · exact Or.inr ⟨mem_mdel h, hne⟩
  · rw [if_neg hcap] at hq
    rcases mem_mset_nodup hnd hq with h | ⟨h, hne⟩
    · exact Or.inl h
    · exact Or.inr ⟨h, hne⟩

/-- A cache hit in a well-formed state returns exactly the record of the
authoritative store and leaves the cache unchanged. -/
theorem cacheGet_hit_eq {now : Nat} {code : String} {st : RepoState} {u v : ShortUrl}
    {c1 : UrlCache} (hc : Consistent st) (hrec : recordOf code st = some u)
    (hg : UrlCache.get now code st.cache = (some v, c1)) : v = u ∧ c1 = st.cache := by
  unfold UrlCache.get at hg
  rcases hf : mfind code st.cache.entries with _ | e
  · rw [hf] at hg
    simp at hg
  · rw [hf] at hg
    simp only at hg
    by_cases hexp : e.expiresAt < now
    · rw [if_pos hexp] at hg
      simp at hg
    · rw [if_neg hexp] at hg
      have hv : e.value = v := (Prod.mk.injEq _ _ _ _).mp hg |>.1 |> Option.some.inj
      have hcc : c1 = st.cache := ((Prod.mk.injEq _ _ _ _).mp hg |>.2).symm
      have hce := hc.2.2.1 (code, e) (mfind_eq_some_mem hf)
      rcases recordOf_facts hc hrec with ⟨_, hidx, hurls⟩
      have hid : e.value.id = u.id := by
        have := hce.2.1
        rw [hidx] at this
        simpa using this.symm
      have : some e.value = some u := by
        rw [← hce.2.2, hid]
        exact hurls
      exact ⟨hv ▸ Option.some.inj this, hcc⟩

/-- Well-formedness survives the lazy deletion a cache read may do. -/
theorem consistent_after_cacheGet (now : Nat) (code : String) {st : RepoState}
    (hc : Consistent st) :
    Consistent { st with cache := (UrlCache.get now code st.cache).2 } := by
  unfold UrlCache.get
  rcases hf : mfind code st.cache.entries with _ | e
  · simp only
    exact hc
  · simp only
    by_cases hexp : e.expiresAt < now
    · rw [if_pos hexp]
      refine ⟨hc.1, hc.2.1, ?_, hc.2.2.2.1, hc.2.2.2.2.1, ?_⟩
      · intro q hq
        exact hc.2.2.1 q (mem_mdel hq)
      · exact nodup_keys_mdel hc.2.2.2.2.2
    · rw [if_neg hexp]
      exact hc

/-- Well-formedness survives re-caching the record a shortcode indexes. -/
theorem consistent_cache_set {now : Nat} {code : String} {st : RepoState} {u : ShortUrl}
    (hc : Consistent st) (hidx : mfind code st.shortcodeIndex = some u.id)
    (hurls : mfind u.id st.urls = some u) (hshort : u.shortcode = code) :
    Consistent { st with cache := st.cache.set now code u } := by
  refine ⟨hc.1, hc.2.1, ?_, hc.2.2.2.1, hc.2.2.2.2.1, nodup_cacheSet hc.2.2.2.2.2⟩
  intro q hq
  rcases mem_cacheSet hq with h | h
  · rw [h]
    exact ⟨hshort, hidx, hurls⟩
  · exact hc.2.2.1 q h

/-- In a well-formed state, looking up a live shortcode returns exactly
the authoritative record, changes only the cache, and preserves
well-formedness and the shortcode's record. -/
theorem findByShortcode_spec {now : Nat} {code : String} {st : RepoState} {u : ShortUrl}
    (hc : Consistent st) (hrec : recordOf code st = some u)
    (hlive : u.isExpired now = false) :
    ∃ C, RepoState.findByShortcode now code st = (some u, { st with cache := C }) ∧
      Consistent { st with cache := C } ∧
      recordOf code { st with cache := C } = some u := by
  rcases recordOf_facts hc hrec with ⟨hshort, hidx, hurls⟩
  unfold RepoState.findByShortcode
  rcases hg : UrlCache.get now code st.cache with ⟨o, c1⟩
  cases o with
  | some v =>
    rcases cacheGet_hit_eq hc hrec hg with ⟨hv, hcc⟩
    subst hv
    subst hcc
    exact ⟨st.cache, rfl, hc, hrec⟩
  | none =>
    simp only
    rw [show mfind code ({ st with cache := c1 } : RepoState).shortcodeIndex =
      some u.id from hidx]
    simp only
    rw [show mfind u.id ({ st with cache := c1 } : RepoState).urls = some u from hurls]
    simp only [hlive]
    have hcons1 : Consistent ({ st with cache := c1 } : RepoState) := by
      have := consistent_after_cacheGet now code hc
      rw [hg] at this
      exact this
    refine ⟨c1.set now code u, by simp, ?_, hrec⟩
    exact consistent_cache_set hcons1 hidx hurls hshort

/-- Writing the clicked record back to the primary map and the cache
preserves well-formedness and rebinds the shortcode to the new record
value. -/
theorem consistent_after_write {now : Nat} {code : String} {st : RepoState}
    {u u2 : ShortUrl} (hc : Consistent st)
    (hidx : mfind code st.shortcodeIndex = some u.id)
    (hurls : mfind u.id st.urls = some u) (hshort : u.shortcode = code)
    (hid2 : u2.id = u.id) (hshort2 : u2.shortcode = u.shortcode) :
    Consistent { st with
      urls := mset u.id u2 st.urls
      cache := st.cache.set now code u2 } ∧
    recordOf code { st with
      urls := mset u.id u2 st.urls
      cache := st.cache.set now code u2 } = some u2 := by
  constructor
  · refine ⟨?_, ?_, ?_, nodup_keys_mset _ hc.2.2.2.1, hc.2.2.2.2.1,
      nodup_cacheSet hc.2.2.2.2.2⟩
    · intro p hp
      rcases mem_mset hp with h | h
      · rw [h]
        exact hid2
      · exact hc.1 p h
    · intro p hp
      by_cases hpid : p.2 = u.id
      · have hold1 := (hc.2.1 p hp).1
        rw [hpid, hurls] at hold1
        simp only [Option.map_some'] at hold1
        constructor
        · rw [hpid,
            show mfind u.id (mset u.id u2 st.urls) = some u2 from mfind_mset_self _ _ _]
          simp only [Option.map_some']
          rw [hshort2]
          exact hold1
        · rw [hpid,
            show mfind u.id (mset u.id u2 st.urls) = some u2 from mfind_mset_self _ _ _]
          simp only [Option.map_some']
          rw [hid2]
      · rw [show mfind p.2 (mset u.id u2 st.urls) = mfind p.2 st.urls from
          mfind_mset_ne _ hpid _]
        exact hc.2.1 p hp
    · intro q hq
      rcases mem_cacheSet_nodup hc.2.2.2.2.2 hq with h | ⟨h, hne⟩
      · rw [h]
        refine ⟨by rw [hshort2, hshort], ?_, ?_⟩
        · simp only
          rw [hid2]
          exact hidx
        · simp only
          rw [hid2]
          exact mfind_mset_self _ _ _
      · have hold := hc.2.2.1 q h
        refine ⟨hold.1, hold.2.1, ?_⟩
        have hqid : q.2.value.id ≠ u.id := by
          intro heq
          have : some q.2.value = some u := by
            rw [← hold.2.2, heq]
            exact hurls
          have hval : q.2.value = u := Option.some.inj this
          exact hne (by rw [← hold.1, hval, hshort])
        rw [show mfind q.2.value.id (mset u.id u2 st.urls) =
          mfind q.2.value.id st.urls from mfind_mset_ne _ hqid _]
        exact hold.2.2
  · unfold recordOf
    simp only
    rw [hidx]
    simp only
    exact mfind_mset_self _ _ _

/-- One successful redirect on a live shortcode in a well-formed state:
it returns the original URL and appends exactly one click to the
shortcode's record, preserving well-formedness. -/
theorem redirect_step {now : Nat} {geo : String → Option Location} {req : RequestMeta}
    {code : String} {st : RepoState} {u : ShortUrl}
    (hc : Consistent st) (hrec : recordOf code st = some u)
    (hlive : u.isExpired now = false) :
    ∃ st2, UrlService.redirectToOriginalUrl now geo code req st =
        (Except.ok u.originalUrl, st2) ∧
      Consistent st2 ∧
      recordOf code st2 = some { u with clicks := u.clicks ++ [mkClick now geo req] } := by
  rcases findByShortcode_spec hc hrec hlive with ⟨C, hfind, hcC, hrecC⟩
  rcases findByShortcode_spec hcC hrecC hlive with ⟨C2, hfind2, hcC2, hrecC2⟩
  rcases recordOf_facts hcC2 hrecC2 with ⟨hshort, hidx, hurls⟩
  have hwrite := @consistent_after_write now code ({ st with cache := C2 }) u
    ({ u with clicks := u.clicks ++ [mkClick now geo req] }) hcC2 hidx hurls hshort rfl rfl
  have haddc : RepoState.addClick now code
      ⟨req.ip, req.userAgent, req.referer, extractLocation geo req.ip⟩
      ({ st with cache := C } : RepoState) =
      (some (mkClick now geo req),
        { st with
          urls := mset u.id { u with clicks := u.clicks ++ [mkClick now geo req] } st.urls
          cache := C2.set now code { u with clicks := u.clicks ++ [mkClick now geo req] } }) := by
    unfold RepoState.addClick
    rw [hfind2]
    rfl
  have hred : UrlService.redirectToOriginalUrl now geo code req st =
      (Except.ok u.originalUrl,
        { st with
          urls := mset u.id { u with clicks := u.clicks ++ [mkClick now geo req] } st.urls
          cache := C2.set now code { u with clicks := u.clicks ++ [mkClick now geo req] } }) := by
    unfold UrlService.redirectToOriginalUrl
    rw [hfind]
    simp only [hlive, Bool.false_eq_true, if_false]
    rw [haddc]
  exact ⟨_, hred, hwrite.1, hwrite.2⟩

/-- Shifting the call index by one inside the accumulated click list. -/
theorem clicks_shift (f : Nat → Click) (N i : Nat) (cs : List Click) :
    cs ++ [f i] ++ (List.range N).map (fun j => f (i + 1 + j)) =
    cs ++ (List.range (N + 1)).map (fun j => f (i + j)) := by
  rw [List.append_assoc]
  congr 1
  rw [List.range_succ_eq_map, List.map_cons, List.map_map]
  have hfun : (fun j => f (i + 1 + j)) = (fun j => f (i + (j + 1))) := by
    funext j
    congr 1
    omega
  rw [hfun]
  simp [Function.comp, Nat.add_comm]

/-- `N` sequential redirects on a live shortcode starting at call index
`i`: every call returns the original URL and the record accumulates the
clicks of calls `i, i+1, …, i+N-1` in order. -/
theorem redirectSeq_spec (now : Nat) (geo : String → Option Location)
    (reqs : Nat → RequestMeta) (code : String) :
    ∀ (N i : Nat) (st : RepoState) (u : ShortUrl),
      Consistent st → recordOf code st = some u → u.isExpired now = false →
      ∃ stf, redirectSeq now geo reqs code i N st =
          (List.replicate N (Except.ok u.originalUrl), stf) ∧
        Consistent stf ∧
        recordOf code stf =
          some { u with
            clicks := u.clicks ++ (List.range N).map (fun j => mkClick now geo (reqs (i + j))) } := by
  intro N
  induction N with
  | zero =>
    intro i st u hc hrec hlive
    refine ⟨st, rfl, hc, ?_⟩
    simpa using hrec
  | succ N ih =>
    intro i st u hc hrec hlive
    rcases redirect_step hc hrec hlive with ⟨st2, hstep, hc2, hrec2⟩
    have hlive2 : ({ u with clicks := u.clicks ++ [mkClick now geo (reqs i)] } :
        ShortUrl).isExpired now = false := hlive
    rcases ih (i + 1) st2 _ hc2 hrec2 hlive2 with ⟨stf, hrun, hcf, hrecf⟩
    refine ⟨stf, ?_, hcf, ?_⟩
    · have hexp1 : redirectSeq now geo reqs code i (N + 1) st =
        ((UrlService.redirectToOriginalUrl now geo code (reqs i) st).1 ::
          (redirectSeq now geo reqs code (i + 1) N
            (UrlService.redirectToOriginalUrl now geo code (reqs i) st).2).1,
         (redirectSeq now geo reqs code (i + 1) N
            (UrlService.redirectToOriginalUrl now geo code (reqs i) st).2).2) := rfl
      rw [hexp1, hstep]
      simp only
      rw [hrun]
      simp [List.replicate_succ]
    · rw [hrecf]
      congr 1
      have := clicks_shift (fun j => mkClick now geo (reqs j)) N i u.clicks
      simp only at this ⊢
      rw [← this]

/-- Claim C7: in a well-formed repository state holding a live
(non-expired) record with an empty click log under a shortcode, `N`
sequential `redirectToOriginalUrl` calls each return the original URL
and leave the record with exactly the clicks of the `N` calls appended
in call order, so `getClickCount` is `N`; and `getClickCount` is by
definition the length of `clicks`, the sole click count (no separate
counter exists on the entity). -/
theorem c7_click_accumulation (now N : Nat) (geo : String → Option Location)
    (reqs : Nat → RequestMeta) (code : String) (st : RepoState) (u : ShortUrl)
    (hc : Consistent st) (hrec : recordOf code st = some u)
    (hlive : u.isExpired now = false) (hfresh : u.clicks = []) :
    ∃ stf r, redirectSeq now geo reqs code 0 N st =
        (List.replicate N (Except.ok u.originalUrl), stf) ∧
      recordOf code stf = some r ∧
      r.clicks = (List.range N).map (fun j => mkClick now geo (reqs j)) ∧
      r.getClickCount = N ∧
      (∀ v : ShortUrl, v.getClickCount = v.clicks.length) := by
  rcases redirectSeq_spec now geo reqs code N 0 st u hc hrec hlive with
    ⟨stf, hrun, _, hrecf⟩
  refine ⟨stf, _, hrun, hrecf, ?_, ?_, fun v => rfl⟩
  · simp [hfresh]
  · simp [ShortUrl.getClickCount, hfresh]

/-- Witness for `c7_click_accumulation`: two redirects on the live
record of `stLive` accumulate exactly two clicks. -/
theorem c7_witness :
    ∃ stf r, redirectSeq 5 (fun _ => none) (fun _ => ⟨"::1", "ua", "r"⟩) "a" 0 2 stLive =
        (List.replicate 2 (Except.ok uLive.originalUrl), stf) ∧
      recordOf "a" stf = some r ∧
      r.clicks = (List.range 2).map
        (fun j => mkClick 5 (fun _ => none) ((fun _ => (⟨"::1", "ua", "r"⟩ : RequestMeta)) j)) ∧
      r.getClickCount = 2 ∧
      (∀ v : ShortUrl, v.getClickCount = v.clicks.length) :=
  c7_click_accumulation 5 2 (fun _ => none) (fun _ => ⟨"::1", "ua", "r"⟩) "a" stLive uLive
    (by decide) (by decide) (by decide) rfl
